import Mathlib

/-!
Shallow embedding of the failure-discovery and classification pipeline of
`src/objects/job.py` (the `Job` class), together with theorems settling the
specification claims about it.

Conventions of the embedding:
* Python strings are Lean `String`s; `str.split(c)` for a one-character
  separator is embedded as `pySplit` (hand-rolled so that its algebra is
  provable).
* Python exceptions (`IndexError`, `FileExistsError`), `exit(1)` and the
  (unreachable) exhaustion of the filename-collision loop are all embedded as
  an `Except PyErr` result.
* The local filesystem is a list of existing paths (files and directories);
  creating a file or directory conses its path onto the list.
* The GCS listing is a list of object-key strings in listing order.
-/

namespace Firewatch

/-- Python-level abnormal outcomes: raised exceptions, `exit(n)`, and
exhaustion of the bounded model of the filename-collision `while` loop. -/
inductive PyErr where
  | indexError : PyErr
  | fileExists : PyErr
  | exitCode : Nat → PyErr
  | loopFuel : PyErr
deriving DecidableEq, Repr

deriving instance DecidableEq for Except

/-- Splitting a character list at every occurrence of `sep`; the result is
never empty (the empty list splits to `[[]]`), mirroring Python `str.split`
with a one-character separator. -/
def splitChar (sep : Char) : List Char → List (List Char)
  | [] => [[]]
  | c :: cs =>
    let rest := splitChar sep cs
    if c = sep then [] :: rest
    else (c :: rest.headI) :: rest.tail

/-- Embedding of Python `s.split(sep)` for a one-character separator. -/
def pySplit (sep : Char) (s : String) : List String :=
  (splitChar sep s.data).map List.asString

/-- Embedding of Python negative indexing `l[-k]` (`k ≥ 1`): the `k`-th
element from the end, raising `IndexError` when the list is too short. -/
def pyNeg (l : List String) (k : Nat) : Except PyErr String :=
  match l.reverse.get? (k - 1) with
  | some x => .ok x
  | none => .error .indexError

/-- Embedding of Python `l[i]` for a nonnegative index, raising `IndexError`
when out of range. -/
def pyIdx (l : List String) (i : Nat) : Except PyErr String :=
  match l.get? i with
  | some x => .ok x
  | none => .error .indexError

/-- A detected failure (`src/objects/failure.py` as used by `Job`): step name,
failure kind, optional test name and report path, and the ignore flag. -/
@[ext]
structure Failure where
  step : String
  failure_type : String
  failed_test_name : Option String := none
  failed_test_junit_path : Option String := none
  ignore : Bool := false
deriving DecidableEq, Repr

/-- A configured failure rule: the externally supplied matching predicate plus
its ignore directive. -/
structure FailureRule where
  matches_failure : Failure → Bool
  ignore : Bool

/-! ## `Job._get_steps` -/

/-- The step-collection loop of `Job._get_steps`: append
`blob.name.split("/")[-2]` for every listed object in listing order,
propagating a raised `IndexError`. -/
def collectSteps : List String → Except PyErr (List String)
  | [] => .ok []
  | n :: ns =>
    match pyNeg (pySplit '/' n) 2 with
    | .error e => .error e
    | .ok s =>
      match collectSteps ns with
      | .error e => .error e
      | .ok rest => .ok (s :: rest)

/-- `Job._get_steps`: collect the second-to-last path segment of every listed
object, then return the list when it is nonempty or the job is a rehearsal,
and `exit(1)` otherwise. -/
def getSteps (isRehearsal : Bool) (blobNames : List String) :
    Except PyErr (List String) :=
  match collectSteps blobNames with
  | .error e => .error e
  | .ok steps =>
    if 0 < steps.length ∨ isRehearsal = true then .ok steps
    else .error (.exitCode 1)

/-! ## Pull-request id derivation in `Job.__init__` -/

/-- Python truthiness of `Optional[str]`: `None` and `""` are falsy. -/
def pyOrOpt (a : Option String) : Option String :=
  match a with
  | some s => if s = "" then none else some s
  | none => none

/-- The rehearsal-job pull-request id computation of `Job.__init__`:
`pr_id or os.getenv("PULL_NUMBER") or self.name.split("-")[1]`, with the
`IndexError` handler substituting `"1"` and emitting a warning.  Returns the
derived id together with whether the warning was emitted. -/
def jobPrId (prId envPullNumber : Option String) (name : String) :
    String × Bool :=
  match pyOrOpt prId with
  | some s => (s, false)
  | none =>
    match pyOrOpt envPullNumber with
    | some s => (s, false)
    | none =>
      match (pySplit '-' name).get? 1 with
      | some tok => (tok, false)
      | none => ("1", true)

/-! ## `Job._find_failures` -/

/-- The inner rule loop of `Job._find_failures`:
`for rule in failure_rules: failure.ignore = rule.matches_failure(failure) and rule.ignore`.
Each iteration overwrites the flag, and the predicate sees the failure with
the flag as mutated so far. -/
def applyRules (rules : List FailureRule) (f : Failure) : Failure :=
  rules.foldl (fun acc rule =>
    { acc with ignore := rule.matches_failure acc && rule.ignore }) f

/-- The dedup-and-classify loop of `Job._find_failures` over the concatenated
failure list, carrying the `unique_steps_with_failures` set (as a list). -/
def findFailuresLoop (rules : List FailureRule) :
    List Failure → List String → List Failure
  | [], _ => []
  | f :: rest, seen =>
    if f.step ∈ seen then findFailuresLoop rules rest seen
    else
      let g := if rules.isEmpty then f else applyRules rules f
      g :: findFailuresLoop rules rest (f.step :: seen)

/-- `Job._find_failures`: combine test failures (first) with pod failures,
keep one failure per step, classify each kept failure against the rules, and
return `None` when nothing survived. -/
def findFailures (rules : List FailureRule)
    (testFailures podFailures : List Failure) : Option (List Failure) :=
  let failures_list := findFailuresLoop rules (testFailures ++ podFailures) []
  if failures_list.length > 0 then some failures_list else none

/-! ## `Job._find_pod_failures` -/

/-- A JSON value as produced by `json.load` (the fragment relevant to
`finished.json` records). -/
inductive JVal where
  | null : JVal
  | bool : Bool → JVal
  | num : Int → JVal
  | str : String → JVal
deriving DecidableEq, Repr

/-- Lookup of a key in a parsed JSON object. -/
def jsonLookup (obj : List (String × JVal)) (key : String) : Option JVal :=
  (obj.find? (fun kv => kv.1 == key)).map (fun kv => kv.2)

/-- Python `dict.get(key, default)` on a parsed JSON object. -/
def jsonGet (obj : List (String × JVal)) (key : String) (default : JVal) :
    JVal :=
  match obj.find? (fun kv => kv.1 == key) with
  | some kv => kv.2
  | none => default

/-- One file visited by the `os.walk` over the downloaded logs tree: the
directory path (as segments), the file name, and the parsed JSON record (read
only for `finished.json` files). -/
structure LogFile where
  dirSegs : List String
  fileName : String
  data : List (String × JVal)

/-- `Job._find_pod_failures`: for every `finished.json` in the walk, emit a
pod failure for the parent directory's name when
`data.get("passed", False) is False`. -/
def findPodFailures (logFiles : List LogFile) : List Failure :=
  logFiles.filterMap (fun lf =>
    if lf.fileName = "finished.json" then
      if jsonGet lf.data "passed" (.bool false) = .bool false then
        some { step := lf.dirSegs.getLast?.getD "",
               failure_type := "pod_failure" }
      else none
    else none)

/-! ## `Job._find_test_failures` -/

/-- Whether `pat` occurs at the head of `s`. -/
def subHere : List Char → List Char → Bool
  | [], _ => true
  | _ :: _, [] => false
  | a :: as, b :: bs => a == b && subHere as bs

/-- Whether `pat` occurs anywhere in `s`. -/
def hasSubList (pat : List Char) : List Char → Bool
  | [] => pat.isEmpty
  | b :: bs => subHere pat (b :: bs) || hasSubList pat bs

/-- Embedding of Python `pat in s` on strings. -/
def strHasSub (s pat : String) : Bool := hasSubList pat.data s.data

/-- A result entry of a junit test case (`junitparser.Failure`, `.Error`,
`.Skipped`). -/
inductive ResultKind where
  | failure : ResultKind
  | error : ResultKind
  | skipped : ResultKind
deriving DecidableEq, Repr

/-- A junit test case: its name and its (possibly empty) result entries. -/
structure TestCase where
  name : String
  result : List ResultKind
deriving DecidableEq, Repr

/-- A direct child yielded when iterating a suite: a proper test case, or a
bare failure/error element (which has no `result` attribute). -/
inductive SuiteChild where
  | case : TestCase → SuiteChild
  | raw : ResultKind → SuiteChild
deriving DecidableEq, Repr

/-- A junit test suite: its name and children. -/
structure TestSuite where
  name : String
  children : List SuiteChild
deriving DecidableEq, Repr

/-- One file under the junit downloads tree: the directory path, the file
name, and the parse result (`none` when `junitparser` raises). -/
structure JunitFile where
  dirPath : String
  fileName : String
  content : Option (List TestSuite)
deriving DecidableEq, Repr

/-- The dictionary kept in `failures_list` before materialisation: the
(step, kind, test name, report path) tuple. -/
structure TestFailureRec where
  step : String
  failure_type : String
  failed_test_name : Option String
  failed_test_junit_path : Option String
deriving DecidableEq, Repr

/-- Python `name.replace(" ", "_")`. -/
def replaceSpaces (s : String) : String :=
  ⟨s.data.map (fun c => if c = ' ' then '_' else c)⟩

/-- `if failure not in failures_list: failures_list.append(failure)`. -/
def dedupAppend (acc : List TestFailureRec) (f : TestFailureRec) :
    List TestFailureRec :=
  if f ∈ acc then acc else acc ++ [f]

/-- The failure dictionary built inside `_find_test_failures`: name and path
are populated only under verbose test failure reporting. -/
def mkTestFailure (verbose : Bool) (step name filePath : String) :
    TestFailureRec :=
  { step := step, failure_type := "test_failure",
    failed_test_name := if verbose then some (replaceSpaces name) else none,
    failed_test_junit_path := if verbose then some filePath else none }

/-- `os.path.join(root, file)` for the walk of the junit tree. -/
def junitFilePath (jf : JunitFile) : String :=
  jf.dirPath ++ "/" ++ jf.fileName

/-- `os.path.basename(os.path.dirname(file_path))`: the last path segment of
the containing directory. -/
def junitFileStep (jf : JunitFile) : String :=
  (pySplit '/' jf.dirPath).getLast?.getD ""

/-- The loop over `case.result`. -/
def scanResults (verbose : Bool) (step name filePath : String)
    (acc : List TestFailureRec) (results : List ResultKind) :
    List TestFailureRec :=
  results.foldl (fun acc r =>
    if r = .failure ∨ r = .error then
      dedupAppend acc (mkTestFailure verbose step name filePath)
    else acc) acc

/-- The body of the `for case in suite` loop. -/
def scanChild (verbose : Bool) (step suiteName filePath : String)
    (acc : List TestFailureRec) (child : SuiteChild) : List TestFailureRec :=
  match child with
  | .case c =>
    if c.result ≠ [] then scanResults verbose step c.name filePath acc c.result
    else acc
  | .raw k =>
    if k = .failure ∨ k = .error then
      dedupAppend acc (mkTestFailure verbose step suiteName filePath)
    else acc

/-- The `for suite in junit_xml` loop body. -/
def scanSuite (verbose : Bool) (step filePath : String)
    (acc : List TestFailureRec) (suite : TestSuite) : List TestFailureRec :=
  suite.children.foldl (scanChild verbose step suite.name filePath) acc

/-- The per-file step of `_find_test_failures`: skip files whose name does not
contain both `junit` and `xml`, skip unparseable files, otherwise scan all
suites. -/
def scanFile (verbose : Bool) (acc : List TestFailureRec) (jf : JunitFile) :
    List TestFailureRec :=
  if strHasSub jf.fileName "junit" && strHasSub jf.fileName "xml" then
    match jf.content with
    | none => acc
    | some suites =>
      suites.foldl (scanSuite verbose (junitFileStep jf) (junitFilePath jf))
        acc
  else acc

/-- The dictionary list accumulated by `_find_test_failures` over the walk. -/
def findTestFailureRecs (verbose : Bool) (files : List JunitFile) :
    List TestFailureRec :=
  files.foldl (scanFile verbose) []

/-- `Job._find_test_failures`: materialise each accumulated dictionary as a
`Failure` object. -/
def findTestFailures (verbose : Bool) (files : List JunitFile) :
    List Failure :=
  (findTestFailureRecs verbose files).map (fun r =>
    { step := r.step, failure_type := r.failure_type,
      failed_test_name := r.failed_test_name,
      failed_test_junit_path := r.failed_test_junit_path })

/-- The records the `case.result` loop attempts to append, in order. -/
def resultCands (verbose : Bool) (step name filePath : String)
    (results : List ResultKind) : List TestFailureRec :=
  results.filterMap (fun r =>
    if r = .failure ∨ r = .error then
      some (mkTestFailure verbose step name filePath)
    else none)

/-- The records one suite child attempts to append, in order. -/
def childCands (verbose : Bool) (step suiteName filePath : String) :
    SuiteChild → List TestFailureRec
  | .case c =>
    if c.result ≠ [] then resultCands verbose step c.name filePath c.result
    else []
  | .raw k =>
    if k = .failure ∨ k = .error then
      [mkTestFailure verbose step suiteName filePath]
    else []

/-- The records one suite attempts to append, in order. -/
def suiteCands (verbose : Bool) (step filePath : String)
    (suite : TestSuite) : List TestFailureRec :=
  suite.children.flatMap (childCands verbose step suite.name filePath)

/-- The records one walked file attempts to append, in order. -/
def fileCands (verbose : Bool) (jf : JunitFile) : List TestFailureRec :=
  if strHasSub jf.fileName "junit" && strHasSub jf.fileName "xml" then
    match jf.content with
    | none => []
    | some suites =>
      suites.flatMap
        (suiteCands verbose (junitFileStep jf) (junitFilePath jf))
  else []

/-- The case- and suite-level names occurring in one walked file. -/
def filePool (jf : JunitFile) : List String :=
  match jf.content with
  | none => []
  | some suites =>
    suites.flatMap (fun s =>
      s.name :: s.children.filterMap (fun ch =>
        match ch with
        | .case c => some c.name
        | .raw _ => none))

/-- The case- and suite-level names occurring in a walked file list. -/
def junitNamePool (files : List JunitFile) : List String :=
  files.flatMap filePool

/-! ## `Job._download_junit` and `Job._download_logs` -/

/-- The non-rehearsal listing prefix
`f"logs/{job_name}/{build_id}/artifacts/{job_name_safe}"`. -/
def nonRehearsalPrefix (jobName buildId jobNameSafe : String) : String :=
  "logs/" ++ jobName ++ "/" ++ buildId ++ "/artifacts/" ++ jobNameSafe

/-- The rehearsal listing prefix
`f"pr-logs/pull/openshift_release/{pr_id}/{job_name}/{build_id}/artifacts/{job_name_safe}"`. -/
def rehearsalPrefix (prId jobName buildId jobNameSafe : String) : String :=
  "pr-logs/pull/openshift_release/" ++ prId ++ "/" ++ jobName ++ "/" ++
    buildId ++ "/artifacts/" ++ jobNameSafe

/-- `blob.name.split("/")[5]`, the step directory the junit pass files a
downloaded object under. -/
def junitBlobStep (blobName : String) : Except PyErr String :=
  pyIdx (pySplit '/' blobName) 5

/-- Modelled from the claim's words: the first path segment of the object key
below the addressed artifact prefix. -/
def firstSegBelowPrefix (pfx key : String) : Option String :=
  (pySplit '/' key).get? (pySplit '/' pfx).length

/-- Splitting off the part of the name from its LAST dot onward, carrying the
part before it. -/
def lastDotSplit : List Char → Option (List Char × List Char)
  | [] => none
  | c :: cs =>
    match lastDotSplit cs with
    | some (b, d) => some (c :: b, d)
    | none => if c = '.' then some ([], c :: cs) else none

/-- Embedding of Python `os.path.splitext` for a bare file name: split at the
last dot unless every character before it is a dot. -/
def splitext (name : String) : String × String :=
  match lastDotSplit name.data with
  | none => (name, "")
  | some (b, d) =>
    if b.all (fun c => c = '.') then (name, "") else (⟨b⟩, ⟨d⟩)

/-- `f"{path}/{blob_step}/{filename}_{file_counter}{extension}"`. -/
def suffixPath (dir filename ext : String) (n : Nat) : String :=
  dir ++ "/" ++ filename ++ "_" ++ toString n ++ ext

/-- The collision-avoidance `while` loop of `_download_junit`.  In Python it
runs until a free name is found; here it carries fuel and reports exhaustion
as an explicit error (with the fuel used below, exhaustion would require two
distinct counters to render equal suffix strings, which never happens). -/
def findFree (fs : List String) (dir filename ext : String) :
    Nat → Nat → Except PyErr String
  | _, 0 => .error .loopFuel
  | counter, fuel + 1 =>
    let p := suffixPath dir filename ext counter
    if p ∈ fs then findFree fs dir filename ext (counter + 1) fuel
    else .ok p

/-- The collision check plus exclusive-open of the junit pass: start from the
plain destination, run the `while` loop when it exists, then create the
chosen free name. -/
def junitWrite (fs1 : List String) (stepDir filename ext : String) :
    Except PyErr (List String) :=
  match (if (stepDir ++ "/" ++ filename ++ ext) ∈ fs1 then
      findFree fs1 stepDir filename ext 1 (fs1.length + 1)
    else .ok (stepDir ++ "/" ++ filename ++ ext)) with
  | .error e => .error e
  | .ok file_path => .ok (file_path :: fs1)

/-- The junit-pass actions once the step is known: create the step directory
when missing, split the extension, and write the collision-free file. -/
def junitStepWrite (path : String) (fs : List String)
    (blob_name blob_step : String) : Except PyErr (List String) :=
  junitWrite
    (if (path ++ "/" ++ blob_step) ∈ fs then fs
     else (path ++ "/" ++ blob_step) :: fs)
    (path ++ "/" ++ blob_step) (splitext blob_name).1 (splitext blob_name).2

/-- One iteration of the junit download loop.  The local filesystem is the
list of existing paths (files and directories), newest first; `open(_, "xb")`
of a free name conses it on. -/
def downloadJunitBlob (path : String) (fs : List String)
    (blobName : String) : Except PyErr (List String) :=
  let segs := pySplit '/' blobName
  let blob_name := segs.getLast?.getD ""
  if strHasSub blob_name "junit" then
    match pyIdx segs 5 with
    | .error e => .error e
    | .ok blob_step => junitStepWrite path fs blob_name blob_step
  else .ok fs

/-- The junit download pass of `_download_junit` over the listed objects. -/
def downloadJunit (path : String) (fs : List String) :
    List String → Except PyErr (List String)
  | [] => .ok fs
  | bn :: rest =>
    match downloadJunitBlob path fs bn with
    | .error e => .error e
    | .ok fs' => downloadJunit path fs' rest

/-- One iteration of the log download loop of `_download_logs`: no collision
handling — `open(file, "xb")` raises `FileExistsError` when the destination
already exists. -/
def downloadLogsBlob (path : String) (fs : List String)
    (blobName : String) : Except PyErr (List String) :=
  let segs := pySplit '/' blobName
  let blob_name := segs.getLast?.getD ""
  match pyNeg segs 2 with
  | .error e => .error e
  | .ok blob_step =>
    if blob_name ∈ ["finished.json", "build-log.txt"] then
      let stepDir := path ++ "/" ++ blob_step
      let fs1 := if stepDir ∈ fs then fs else stepDir :: fs
      let file := stepDir ++ "/" ++ blob_name
      if file ∈ fs1 then .error .fileExists
      else .ok (file :: fs1)
    else .ok fs

/-- The log download pass of `_download_logs` over the listed objects. -/
def downloadLogs (path : String) (fs : List String) :
    List String → Except PyErr (List String)
  | [] => .ok fs
  | bn :: rest =>
    match downloadLogsBlob path fs bn with
    | .error e => .error e
    | .ok fs' => downloadLogs path fs' rest

/-- The spec's "first occurrence per step" selection, stated on the step names
alone: keep a name when it has not been seen yet. -/
def firstSeen : List String → List String → List String
  | [], _ => []
  | s :: rest, seen =>
    if s ∈ seen then firstSeen rest seen else s :: firstSeen rest (s :: seen)

/-- The ignore flag as the CLAIM words it: the ignore directive of the last
configured rule that matches the failure, the flag being unaffected by
non-matching rules (and left at its prior value when no rule matches). -/
def specLastMatchIgnore (rules : List FailureRule) (f : Failure) : Bool :=
  match (rules.filter (fun r => r.matches_failure f)).getLast? with
  | some r => r.ignore
  | none => f.ignore

/-- A rule that matches every failure and directs ignore. -/
def c1RuleMatchIgnore : FailureRule := ⟨fun _ => true, true⟩

/-- A rule that matches no failure but directs ignore. -/
def c1RuleNoMatch : FailureRule := ⟨fun _ => false, true⟩

/-- A rule matching exactly the failures of step `"s1"`, directing ignore. -/
def c1RuleStep : FailureRule := ⟨fun g => g.step == "s1", true⟩

/-- A pod failure at step `"s1"` with the default (false) ignore flag. -/
def c1Fail : Failure := { step := "s1", failure_type := "pod_failure" }

/-- A concrete junit report file with one failing case. -/
def c9File : JunitFile :=
  ⟨"downloads/artifacts/step0", "junit_report.xml",
    some [⟨"suiteA", [.case ⟨"case one", [.failure]⟩]⟩]⟩

/-- A concrete junit report file with one errored case whose name contains a
space. -/
def c10File : JunitFile :=
  ⟨"dl/artifacts/stepX", "junit_x.xml",
    some [⟨"suite B", [.case ⟨"case one", [.error]⟩]⟩]⟩

/-- The failure produced by scanning `c10File` under verbose reporting. -/
def c10Out : Failure :=
  { step := "stepX", failure_type := "test_failure",
    failed_test_name := some "case_one",
    failed_test_junit_path := some "dl/artifacts/stepX/junit_x.xml" }

/-! ## Helper lemmas -/

theorem collectSteps_forall2 :
    ∀ (ns ss : List String), collectSteps ns = .ok ss →
      List.Forall₂ (fun n s => pyNeg (pySplit '/' n) 2 = .ok s) ns ss := by
  intro ns
  induction ns with
  | nil =>
    intro ss h
    cases h
    exact .nil
  | cons n ns ih =>
    intro ss h
    unfold collectSteps at h
    cases hf : pyNeg (pySplit '/' n) 2 with
    | error e => rw [hf] at h; cases h
    | ok s =>
      rw [hf] at h
      cases hm : collectSteps ns with
      | error e => rw [hm] at h; cases h
      | ok ss' =>
        rw [hm] at h
        cases h
        exact .cons hf (ih ss' hm)

theorem getSteps_ok_collect (isReh : Bool) (names steps : List String)
    (h : getSteps isReh names = .ok steps) :
    collectSteps names = .ok steps := by
  unfold getSteps at h
  cases hm : collectSteps names with
  | error e => rw [hm] at h; cases h
  | ok l =>
    rw [hm] at h
    have h' : (if 0 < l.length ∨ isReh = true then Except.ok l
        else Except.error (PyErr.exitCode 1)) = Except.ok steps := h
    by_cases hc : 0 < l.length ∨ isReh = true
    · rw [if_pos hc] at h'; cases h'; rfl
    · rw [if_neg hc] at h'; cases h'

/-- `applyRules` only rewrites the ignore flag: all the other fields of the
failure are untouched by the rule loop. -/
theorem applyRules_preserves (rules : List FailureRule) (f : Failure) :
    (applyRules rules f).step = f.step ∧
    (applyRules rules f).failure_type = f.failure_type ∧
    (applyRules rules f).failed_test_name = f.failed_test_name ∧
    (applyRules rules f).failed_test_junit_path = f.failed_test_junit_path := by
  induction rules generalizing f with
  | nil => exact ⟨rfl, rfl, rfl, rfl⟩
  | cons r rs ih =>
    exact ih { f with ignore := r.matches_failure f && r.ignore }

/-- The `if rules.isEmpty` guard in the loop is immaterial: an empty rule list
leaves the failure unchanged, exactly as `applyRules []` does. -/
theorem ruleGuard_eq_applyRules (rules : List FailureRule) (f : Failure) :
    (if rules.isEmpty then f else applyRules rules f) = applyRules rules f := by
  cases rules <;> rfl

theorem jsonGet_eq_lookup_getD (obj : List (String × JVal)) (key : String)
    (d : JVal) : jsonGet obj key d = (jsonLookup obj key).getD d := by
  unfold jsonGet jsonLookup
  cases obj.find? (fun kv => kv.1 == key) <;> rfl

theorem strExt {s t : String} (h : s.data = t.data) : s = t := by
  cases s; cases t; exact congrArg String.mk h

theorem asString_data (s : String) : s.data.asString = s := by
  cases s; rfl

theorem splitChar_no_sep (sep : Char) :
    ∀ (l : List Char), sep ∉ l → splitChar sep l = [l] := by
  intro l
  induction l with
  | nil => intro _; rfl
  | cons c cs ih =>
    intro h
    have hc : ¬ c = sep := fun he => h (he ▸ List.mem_cons_self c cs)
    have hrest := ih (fun hm => h (List.mem_cons_of_mem c hm))
    simp only [splitChar, if_neg hc, hrest]
    rfl

theorem splitChar_append_sep (sep : Char) :
    ∀ (a b : List Char), sep ∉ a →
      splitChar sep (a ++ sep :: b) = a :: splitChar sep b := by
  intro a
  induction a with
  | nil =>
    intro b _
    simp [splitChar]
  | cons c cs ih =>
    intro b ha
    have hc : ¬ c = sep := fun he => ha (he ▸ List.mem_cons_self c cs)
    have hrest := ih b (fun hm => ha (List.mem_cons_of_mem c hm))
    simp only [List.cons_append, splitChar, if_neg hc, List.append_eq, hrest]
    rfl

theorem pySplit_no_sep (s : String) (hs : '/' ∉ s.data) :
    pySplit '/' s = [s] := by
  unfold pySplit
  rw [splitChar_no_sep '/' s.data hs]
  simp [asString_data]

theorem pySplit_append_sep (a b : String) (ha : '/' ∉ a.data) :
    pySplit '/' (a ++ "/" ++ b) = a :: pySplit '/' b := by
  unfold pySplit
  have hdata : (a ++ "/" ++ b).data = a.data ++ '/' :: b.data := by
    simp [String.data_append]
  rw [hdata, splitChar_append_sep '/' a.data b.data ha]
  simp [asString_data]

/-- Splitting a non-rehearsal object key: 5 prefix segments then the tail. -/
theorem pySplit_nonRehearsal (j b s rest : String)
    (hj : '/' ∉ j.data) (hb : '/' ∉ b.data) (hs : '/' ∉ s.data) :
    pySplit '/' (nonRehearsalPrefix j b s ++ "/" ++ rest) =
      "logs" :: j :: b :: "artifacts" :: s :: pySplit '/' rest := by
  have h1 : nonRehearsalPrefix j b s ++ "/" ++ rest =
      "logs" ++ "/" ++ (j ++ "/" ++ (b ++ "/" ++
        ("artifacts" ++ "/" ++ (s ++ "/" ++ rest)))) := by
    apply strExt
    simp [nonRehearsalPrefix, String.data_append]
  rw [h1, pySplit_append_sep _ _ (by decide), pySplit_append_sep _ _ hj,
    pySplit_append_sep _ _ hb, pySplit_append_sep _ _ (by decide),
    pySplit_append_sep _ _ hs]

/-- Splitting the bare non-rehearsal prefix. -/
theorem pySplit_nonRehearsalPrefix (j b s : String)
    (hj : '/' ∉ j.data) (hb : '/' ∉ b.data) (hs : '/' ∉ s.data) :
    pySplit '/' (nonRehearsalPrefix j b s) =
      ["logs", j, b, "artifacts", s] := by
  have h1 : nonRehearsalPrefix j b s =
      "logs" ++ "/" ++ (j ++ "/" ++ (b ++ "/" ++ ("artifacts" ++ "/" ++ s)))
      := by
    apply strExt
    simp [nonRehearsalPrefix, String.data_append]
  rw [h1, pySplit_append_sep _ _ (by decide), pySplit_append_sep _ _ hj,
    pySplit_append_sep _ _ hb, pySplit_append_sep _ _ (by decide),
    pySplit_no_sep _ hs]

/-- Splitting a rehearsal object key: 8 prefix segments then the tail. -/
theorem pySplit_rehearsal (p j b s rest : String)
    (hp : '/' ∉ p.data) (hj : '/' ∉ j.data) (hb : '/' ∉ b.data)
    (hs : '/' ∉ s.data) :
    pySplit '/' (rehearsalPrefix p j b s ++ "/" ++ rest) =
      "pr-logs" :: "pull" :: "openshift_release" :: p :: j :: b ::
        "artifacts" :: s :: pySplit '/' rest := by
  have h1 : rehearsalPrefix p j b s ++ "/" ++ rest =
      "pr-logs" ++ "/" ++ ("pull" ++ "/" ++ ("openshift_release" ++ "/" ++
        (p ++ "/" ++ (j ++ "/" ++ (b ++ "/" ++
          ("artifacts" ++ "/" ++ (s ++ "/" ++ rest))))))) := by
    apply strExt
    simp [rehearsalPrefix, String.data_append]
  rw [h1, pySplit_append_sep _ _ (by decide), pySplit_append_sep _ _
    (by decide), pySplit_append_sep _ _ (by decide),
    pySplit_append_sep _ _ hp, pySplit_append_sep _ _ hj,
    pySplit_append_sep _ _ hb, pySplit_append_sep _ _ (by decide),
    pySplit_append_sep _ _ hs]

/-- Splitting the bare rehearsal prefix. -/
theorem pySplit_rehearsalPrefix (p j b s : String)
    (hp : '/' ∉ p.data) (hj : '/' ∉ j.data) (hb : '/' ∉ b.data)
    (hs : '/' ∉ s.data) :
    pySplit '/' (rehearsalPrefix p j b s) =
      ["pr-logs", "pull", "openshift_release", p, j, b, "artifacts", s] := by
  have h1 : rehearsalPrefix p j b s =
      "pr-logs" ++ "/" ++ ("pull" ++ "/" ++ ("openshift_release" ++ "/" ++
        (p ++ "/" ++ (j ++ "/" ++ (b ++ "/" ++ ("artifacts" ++ "/" ++ s))))))
      := by
    apply strExt
    simp [rehearsalPrefix, String.data_append]
  rw [h1, pySplit_append_sep _ _ (by decide), pySplit_append_sep _ _
    (by decide), pySplit_append_sep _ _ (by decide),
    pySplit_append_sep _ _ hp, pySplit_append_sep _ _ hj,
    pySplit_append_sep _ _ hb, pySplit_append_sep _ _ (by decide),
    pySplit_no_sep _ hs]

theorem getLast?_eq_some_mem {α : Type} {l : List α} {a : α}
    (h : l.getLast? = some a) : a ∈ l := by
  obtain ⟨hne, hx⟩ := List.mem_getLast?_eq_getLast (x := a) h
  exact hx ▸ List.getLast_mem hne

theorem scanResults_eq_foldl (verbose : Bool) (step name filePath : String) :
    ∀ (results : List ResultKind) (acc : List TestFailureRec),
      scanResults verbose step name filePath acc results =
        (resultCands verbose step name filePath results).foldl
          dedupAppend acc := by
  intro results
  induction results with
  | nil => intro acc; rfl
  | cons r rs ih =>
    intro acc
    by_cases h : r = ResultKind.failure ∨ r = ResultKind.error
    · simp only [scanResults, List.foldl_cons, resultCands,
        List.filterMap_cons, if_pos h]
      exact ih _
    · simp only [scanResults, List.foldl_cons, resultCands,
        List.filterMap_cons, if_neg h]
      exact ih _

theorem scanChild_eq_foldl (verbose : Bool) (step suiteName filePath : String)
    (acc : List TestFailureRec) (ch : SuiteChild) :
    scanChild verbose step suiteName filePath acc ch =
      (childCands verbose step suiteName filePath ch).foldl dedupAppend acc := by
  cases ch with
  | case c =>
    by_cases h : c.result ≠ []
    · simp only [scanChild, childCands, if_pos h]
      exact scanResults_eq_foldl verbose step c.name filePath c.result acc
    · simp only [scanChild, childCands, if_neg h]
      rfl
  | raw k =>
    by_cases h : k = ResultKind.failure ∨ k = ResultKind.error
    · simp only [scanChild, childCands, if_pos h]
      rfl
    · simp only [scanChild, childCands, if_neg h]
      rfl

theorem suitesFoldl_eq_foldl (verbose : Bool) (step filePath : String) :
    ∀ (suites : List TestSuite) (acc : List TestFailureRec),
      suites.foldl (scanSuite verbose step filePath) acc =
        (suites.flatMap (suiteCands verbose step filePath)).foldl
          dedupAppend acc := by
  intro suites
  induction suites with
  | nil => intro acc; rfl
  | cons s rest ih =>
    intro acc
    rw [List.foldl_cons, List.flatMap_cons, List.foldl_append]
    have hs : scanSuite verbose step filePath acc s =
        (suiteCands verbose step filePath s).foldl dedupAppend acc := by
      unfold scanSuite suiteCands
      induction s.children generalizing acc with
      | nil => rfl
      | cons ch chs ihc =>
        rw [List.foldl_cons, scanChild_eq_foldl, List.flatMap_cons,
          List.foldl_append]
        exact ihc _
    rw [hs]
    exact ih _

theorem scanFile_eq_foldl (verbose : Bool) (acc : List TestFailureRec)
    (jf : JunitFile) :
    scanFile verbose acc jf = (fileCands verbose jf).foldl dedupAppend acc := by
  by_cases h : (strHasSub jf.fileName "junit" && strHasSub jf.fileName "xml")
    = true
  · cases hc : jf.content with
    | none => simp only [scanFile, fileCands, if_pos h, hc, List.foldl_nil]
    | some suites =>
      simp only [scanFile, fileCands, if_pos h, hc]
      exact suitesFoldl_eq_foldl verbose (junitFileStep jf) (junitFilePath jf)
        suites acc
  · simp only [scanFile, fileCands, if_neg h, List.foldl_nil]

theorem findTestFailureRecs_eq_foldl (verbose : Bool) :
    ∀ (files : List JunitFile) (acc : List TestFailureRec),
      files.foldl (scanFile verbose) acc =
        (files.flatMap (fileCands verbose)).foldl dedupAppend acc := by
  intro files
  induction files with
  | nil => intro acc; rfl
  | cons jf rest ih =>
    intro acc
    rw [List.foldl_cons, scanFile_eq_foldl, List.flatMap_cons,
      List.foldl_append]
    exact ih _

theorem dedupAppend_nodup {acc : List TestFailureRec} {f : TestFailureRec}
    (h : acc.Nodup) : (dedupAppend acc f).Nodup := by
  unfold dedupAppend
  split
  · exact h
  · next hne =>
    exact List.Nodup.append h (List.nodup_singleton f)
      (fun a ha hb => hne ((List.mem_singleton.mp hb) ▸ ha))

theorem foldl_dedupAppend_nodup :
    ∀ (l acc : List TestFailureRec), acc.Nodup →
      (l.foldl dedupAppend acc).Nodup := by
  intro l
  induction l with
  | nil => intro acc h; exact h
  | cons f rest ih => intro acc h; exact ih _ (dedupAppend_nodup h)

theorem mem_dedupAppend_left {acc : List TestFailureRec}
    {x f : TestFailureRec} (h : x ∈ acc) : x ∈ dedupAppend acc f := by
  unfold dedupAppend
  split
  · exact h
  · exact List.mem_append_left _ h

theorem mem_dedupAppend_self (acc : List TestFailureRec)
    (f : TestFailureRec) : f ∈ dedupAppend acc f := by
  unfold dedupAppend
  split
  · next h => exact h
  · exact List.mem_append_right _ (List.mem_singleton_self f)

theorem mem_foldl_dedupAppend_of_acc :
    ∀ (l acc : List TestFailureRec) (x : TestFailureRec), x ∈ acc →
      x ∈ l.foldl dedupAppend acc := by
  intro l
  induction l with
  | nil => intro acc x h; exact h
  | cons f rest ih =>
    intro acc x h
    exact ih _ x (mem_dedupAppend_left h)

theorem mem_foldl_dedupAppend_of_list :
    ∀ (l acc : List TestFailureRec) (x : TestFailureRec), x ∈ l →
      x ∈ l.foldl dedupAppend acc := by
  intro l
  induction l with
  | nil => intro acc x h; cases h
  | cons f rest ih =>
    intro acc x h
    rcases List.mem_cons.mp h with h | h
    · subst h
      exact mem_foldl_dedupAppend_of_acc rest _ x
        (mem_dedupAppend_self acc x)
    · exact ih _ x h

theorem foldl_dedupAppend_of_subset :
    ∀ (l acc : List TestFailureRec), (∀ x ∈ l, x ∈ acc) →
      l.foldl dedupAppend acc = acc := by
  intro l
  induction l with
  | nil => intro acc _; rfl
  | cons f rest ih =>
    intro acc h
    rw [List.foldl_cons,
      show dedupAppend acc f = acc from
        if_pos (h f (List.mem_cons_self f rest))]
    exact ih acc (fun x hx => h x (List.mem_cons_of_mem f hx))

theorem mem_of_mem_foldl_dedupAppend :
    ∀ (l acc : List TestFailureRec) (x : TestFailureRec),
      x ∈ l.foldl dedupAppend acc → x ∈ acc ∨ x ∈ l := by
  intro l
  induction l with
  | nil => intro acc x h; exact Or.inl h
  | cons f rest ih =>
    intro acc x h
    rcases ih _ x h with h' | h'
    · unfold dedupAppend at h'
      split at h'
      · exact Or.inl h'
      · rcases List.mem_append.mp h' with h'' | h''
        · exact Or.inl h''
        · exact Or.inr (List.mem_cons.mpr
            (Or.inl (List.mem_singleton.mp h'')))
    · exact Or.inr (List.mem_cons_of_mem f h')

/-- Every candidate record of a verbose file scan is a
`mkTestFailure true` of some case- or suite-level name of the file. -/
theorem fileCands_name (jf : JunitFile) (r : TestFailureRec)
    (hr : r ∈ fileCands true jf) :
    ∃ n ∈ filePool jf,
      r = mkTestFailure true (junitFileStep jf) (n) (junitFilePath jf) := by
  by_cases h : (strHasSub jf.fileName "junit" && strHasSub jf.fileName "xml")
    = true
  · cases hc : jf.content with
    | none => simp [fileCands, h, hc] at hr
    | some suites =>
      simp only [fileCands, h, hc, if_true] at hr
      have hpool : filePool jf = suites.flatMap (fun s =>
          s.name :: s.children.filterMap (fun ch =>
            match ch with
            | .case c => some c.name
            | .raw _ => none)) := by
        simp only [filePool, hc]
      rw [hpool]
      obtain ⟨s, hs, hrs⟩ := List.mem_flatMap.mp hr
      unfold suiteCands at hrs
      obtain ⟨ch, hch, hrc⟩ := List.mem_flatMap.mp hrs
      cases ch with
      | case c =>
        simp only [childCands] at hrc
        by_cases hres : c.result ≠ []
        · rw [if_pos hres] at hrc
          obtain ⟨res, _, heq⟩ := List.mem_filterMap.mp hrc
          by_cases hk : res = ResultKind.failure ∨ res = ResultKind.error
          · rw [if_pos hk] at heq
            refine ⟨c.name, ?_, (Option.some.injEq _ _ ▸ heq).symm⟩
            refine List.mem_flatMap.mpr ⟨s, hs, List.mem_cons_of_mem _ ?_⟩
            exact List.mem_filterMap.mpr ⟨SuiteChild.case c, hch, rfl⟩
          · rw [if_neg hk] at heq; cases heq
        · rw [if_neg hres] at hrc; cases hrc
      | raw k =>
        simp only [childCands] at hrc
        by_cases hk : k = ResultKind.failure ∨ k = ResultKind.error
        · rw [if_pos hk] at hrc
          refine ⟨s.name, ?_, (List.mem_singleton.mp hrc)⟩
          exact List.mem_flatMap.mpr ⟨s, hs, List.mem_cons_self _ _⟩
        · rw [if_neg hk] at hrc; cases hrc
  · simp [fileCands, h] at hr

/-- `replaceSpaces` output never contains a space character. -/
theorem replaceSpaces_no_space (s : String) :
    ∀ c ∈ (replaceSpaces s).data, c ≠ ' ' := by
  intro c hc
  obtain ⟨c', _, rfl⟩ := List.mem_map.mp hc
  by_cases h : c' = ' '
  · simp [h]
  · simp [h]

/-- The accumulated dictionary list is always duplicate-free. -/
theorem findTestFailureRecs_nodup (verbose : Bool) (files : List JunitFile) :
    (findTestFailureRecs verbose files).Nodup := by
  unfold findTestFailureRecs
  rw [findTestFailureRecs_eq_foldl]
  exact foldl_dedupAppend_nodup _ [] List.nodup_nil

/-- Scanning the same report file twice yields the same failures as scanning
it once: re-recording a duplicate tuple is a no-op. -/
theorem findTestFailures_double (verbose : Bool) (jf : JunitFile) :
    findTestFailures verbose [jf, jf] = findTestFailures verbose [jf] := by
  unfold findTestFailures
  refine congrArg (List.map _) ?_
  unfold findTestFailureRecs
  rw [findTestFailureRecs_eq_foldl, findTestFailureRecs_eq_foldl]
  simp only [List.flatMap_cons, List.flatMap_nil, List.append_nil]
  rw [List.foldl_append]
  exact foldl_dedupAppend_of_subset _ _
    (fun x hx => mem_foldl_dedupAppend_of_list _ [] x hx)

/-- The step names the classify-and-dedup loop emits are exactly the
first-seen selection of the step names of its input. -/
theorem findFailuresLoop_map_step (rules : List FailureRule) :
    ∀ (l : List Failure) (seen : List String),
      (findFailuresLoop rules l seen).map (·.step) =
        firstSeen (l.map (·.step)) seen := by
  intro l
  induction l with
  | nil => intro seen; rfl
  | cons f rest ih =>
    intro seen
    simp only [List.map_cons, findFailuresLoop, firstSeen]
    by_cases hs : f.step ∈ seen
    · rw [if_pos hs, if_pos hs]
      exact ih seen
    · rw [if_neg hs, if_neg hs, List.map_cons]
      refine congrArg₂ List.cons ?_ (ih (f.step :: seen))
      rw [ruleGuard_eq_applyRules]
      exact (applyRules_preserves rules f).1

/-- `firstSeen` output is duplicate-free and disjoint from the already-seen
set. -/
theorem firstSeen_nodup :
    ∀ (l seen : List String), (firstSeen l seen).Nodup ∧
      ∀ s ∈ firstSeen l seen, s ∉ seen := by
  intro l
  induction l with
  | nil => intro seen; exact ⟨List.nodup_nil, fun s hs => absurd hs (by simp [firstSeen])⟩
  | cons a rest ih =>
    intro seen
    unfold firstSeen
    by_cases ha : a ∈ seen
    · rw [if_pos ha]; exact ih seen
    · rw [if_neg ha]
      obtain ⟨hnd, hnotin⟩ := ih (a :: seen)
      refine ⟨List.nodup_cons.mpr ⟨fun hmem => ?_, hnd⟩, fun s hs => ?_⟩
      · exact hnotin a hmem (List.mem_cons_self a seen)
      · rcases List.mem_cons.mp hs with h | h
        · exact h ▸ ha
        · exact fun hseen => hnotin s h (List.mem_cons_of_mem a hseen)

/-- Every failure the loop emits is the rule-classified image of some input
failure. -/
theorem findFailuresLoop_mem (rules : List FailureRule) :
    ∀ (l : List Failure) (seen : List String) (g : Failure),
      g ∈ findFailuresLoop rules l seen → ∃ f ∈ l, g = applyRules rules f := by
  intro l
  induction l with
  | nil => intro seen g hg; cases hg
  | cons f rest ih =>
    intro seen g hg
    simp only [findFailuresLoop] at hg
    by_cases hs : f.step ∈ seen
    · rw [if_pos hs] at hg
      obtain ⟨f', hf', he⟩ := ih seen g hg
      exact ⟨f', List.mem_cons_of_mem f hf', he⟩
    · rw [if_neg hs, ruleGuard_eq_applyRules] at hg
      rcases List.mem_cons.mp hg with h | h
      · exact ⟨f, List.mem_cons_self f rest, h⟩
      · obtain ⟨f', hf', he⟩ := ih (f.step :: seen) g h
        exact ⟨f', List.mem_cons_of_mem f hf', he⟩

/-- When every rule's predicate is insensitive to the ignore flag, the flag
produced by the rule loop is determined by the LAST configured rule alone:
it is that rule's match result conjoined with its ignore directive. -/
theorem applyRules_ignore_last :
    ∀ (rules : List FailureRule) (r : FailureRule),
      rules.getLast? = some r →
      (∀ q ∈ rules, ∀ (g : Failure) (b : Bool),
        q.matches_failure { g with ignore := b } = q.matches_failure g) →
      ∀ f : Failure,
        (applyRules rules f).ignore = (r.matches_failure f && r.ignore) := by
  intro rules
  induction rules with
  | nil => intro r h; cases h
  | cons q qs ih =>
    intro r hlast hblind f
    cases qs with
    | nil =>
      have hq : q = r := by simpa using hlast
      subst hq
      rfl
    | cons q2 qs2 =>
      have hlast2 : (q2 :: qs2).getLast? = some r := by
        rw [← List.getLast?_cons_cons (l := qs2)]
        exact hlast
      have hblind2 : ∀ q' ∈ q2 :: qs2, ∀ (g : Failure) (b : Bool),
          q'.matches_failure { g with ignore := b } = q'.matches_failure g :=
        fun q' hq' => hblind q' (List.mem_cons_of_mem q hq')
      have hrmem : r ∈ q :: q2 :: qs2 :=
        List.mem_cons_of_mem q (getLast?_eq_some_mem hlast2)
      have hstep : applyRules (q :: q2 :: qs2) f =
          applyRules (q2 :: qs2)
            { f with ignore := q.matches_failure f && q.ignore } := rfl
      rw [hstep, ih r hlast2 hblind2]
      rw [hblind r hrmem f (q.matches_failure f && q.ignore)]

theorem findFree_ok_not_mem (fs : List String) (dir filename ext : String) :
    ∀ (fuel counter : Nat) (p : String),
      findFree fs dir filename ext counter fuel = .ok p → p ∉ fs := by
  intro fuel
  induction fuel with
  | zero => intro counter p h; cases h
  | succ n ih =>
    intro counter p h
    simp only [findFree] at h
    by_cases hp : suffixPath dir filename ext counter ∈ fs
    · rw [if_pos hp] at h
      exact ih (counter + 1) p h
    · rw [if_neg hp] at h
      cases h
      exact hp

theorem junitWrite_ok (fs1 : List String) (stepDir filename ext : String)
    (fs' : List String) (h : junitWrite fs1 stepDir filename ext = .ok fs') :
    ∃ fp, fs' = fp :: fs1 ∧ fp ∉ fs1 := by
  unfold junitWrite at h
  cases hff : (if (stepDir ++ "/" ++ filename ++ ext) ∈ fs1 then
      findFree fs1 stepDir filename ext 1 (fs1.length + 1)
    else .ok (stepDir ++ "/" ++ filename ++ ext)) with
  | error e => rw [hff] at h; cases h
  | ok fp =>
    rw [hff] at h
    cases h
    refine ⟨fp, rfl, ?_⟩
    by_cases hb : (stepDir ++ "/" ++ filename ++ ext) ∈ fs1
    · rw [if_pos hb] at hff
      exact findFree_ok_not_mem fs1 stepDir filename ext _ _ fp hff
    · rw [if_neg hb] at hff
      cases hff
      exact hb

theorem junitStepWrite_ok (path : String) (fs : List String)
    (bn step : String) (fs' : List String)
    (h : junitStepWrite path fs bn step = .ok fs') :
    ∃ new, fs' = new ++ fs ∧ new.Nodup ∧ ∀ x ∈ new, x ∉ fs := by
  unfold junitStepWrite at h
  by_cases hd : (path ++ "/" ++ step) ∈ fs
  · rw [if_pos hd] at h
    obtain ⟨fp, rfl, hfp⟩ := junitWrite_ok _ _ _ _ _ h
    exact ⟨[fp], rfl, List.nodup_singleton fp,
      fun x hx => (List.mem_singleton.mp hx) ▸ hfp⟩
  · rw [if_neg hd] at h
    obtain ⟨fp, rfl, hfp⟩ := junitWrite_ok _ _ _ _ _ h
    refine ⟨[fp, path ++ "/" ++ step], rfl, ?_, ?_⟩
    · refine List.nodup_cons.mpr ⟨fun hmem => ?_, List.nodup_singleton _⟩
      exact hfp ((List.mem_singleton.mp hmem) ▸ List.mem_cons_self _ _)
    · intro x hx
      rcases List.mem_cons.mp hx with h1 | h1
      · subst h1
        exact fun hxfs => hfp (List.mem_cons_of_mem _ hxfs)
      · have hx2 : x = path ++ "/" ++ step := List.mem_singleton.mp h1
        subst hx2
        exact hd

theorem downloadJunitBlob_ok (path : String) (fs : List String)
    (bn : String) (fs' : List String)
    (h : downloadJunitBlob path fs bn = .ok fs') :
    ∃ new, fs' = new ++ fs ∧ new.Nodup ∧ ∀ x ∈ new, x ∉ fs := by
  unfold downloadJunitBlob at h
  by_cases hj : strHasSub ((pySplit '/' bn).getLast?.getD "") "junit" = true
  · rw [if_pos hj] at h
    cases hidx : pyIdx (pySplit '/' bn) 5 with
    | error e => rw [hidx] at h; cases h
    | ok step =>
      rw [hidx] at h
      have h2 : junitStepWrite path fs ((pySplit '/' bn).getLast?.getD "")
          step = .ok fs' := h
      exact junitStepWrite_ok path fs _ step fs' h2
  · rw [if_neg hj] at h
    cases h
    exact ⟨[], rfl, List.nodup_nil, fun x hx => absurd hx (List.not_mem_nil x)⟩

theorem downloadJunit_ok :
    ∀ (blobs : List String) (path : String) (fs fs' : List String),
      downloadJunit path fs blobs = .ok fs' →
      ∃ new, fs' = new ++ fs ∧ new.Nodup ∧ ∀ x ∈ new, x ∉ fs := by
  intro blobs
  induction blobs with
  | nil =>
    intro path fs fs' h
    cases h
    exact ⟨[], rfl, List.nodup_nil, fun x hx => absurd hx (List.not_mem_nil x)⟩
  | cons bn rest ih =>
    intro path fs fs' h
    unfold downloadJunit at h
    cases hb : downloadJunitBlob path fs bn with
    | error e => rw [hb] at h; cases h
    | ok fs1 =>
      rw [hb] at h
      have h2 : downloadJunit path fs1 rest = .ok fs' := h
      obtain ⟨new1, rfl, hnd1, hmem1⟩ := downloadJunitBlob_ok path fs bn fs1 hb
      obtain ⟨new2, rfl, hnd2, hmem2⟩ := ih path (new1 ++ fs) fs' h2
      refine ⟨new2 ++ new1, (List.append_assoc new2 new1 fs).symm, ?_, ?_⟩
      · exact List.Nodup.append hnd2 hnd1
          (fun a ha hb' => (hmem2 a ha) (List.mem_append_left fs hb'))
      · intro x hx
        rcases List.mem_append.mp hx with h3 | h3
        · exact fun hxfs => (hmem2 x h3) (List.mem_append_right new1 hxfs)
        · exact hmem1 x h3

/-! ## Claim theorems -/

/-- C1 counterexample: with a matching rule that directs ignore followed by a
non-matching rule, the classifier leaves the appended failure's ignore flag
false, while the claim's "last matching rule wins, non-matching rules do not
affect the flag" demands true; dropping the non-matching rule flips the
result, so non-matching rules do affect the flag. -/
theorem findFailures_ignore_counterexample :
    findFailures [c1RuleMatchIgnore, c1RuleNoMatch] [] [c1Fail] =
      some [c1Fail] ∧
    c1Fail.ignore = false ∧
    specLastMatchIgnore [c1RuleMatchIgnore, c1RuleNoMatch] c1Fail = true ∧
    findFailures [c1RuleMatchIgnore] [] [c1Fail] =
      some [{ c1Fail with ignore := true }] :=
  ⟨by decide, rfl, by decide, by decide⟩

/-- C1 amended: every rule evaluation overwrites the flag, so for rule
predicates insensitive to the ignore flag, each failure appended to the
output carries the flag (last rule matches && last rule's ignore directive) —
the LAST configured rule alone determines it, matching or not; the flag
still depends only on the failure and the rules, not on the iteration order
of the failure list. -/
theorem findFailures_ignore_last_rule (rules : List FailureRule)
    (r : FailureRule) (hlast : rules.getLast? = some r)
    (hblind : ∀ q ∈ rules, ∀ (g : Failure) (b : Bool),
      q.matches_failure { g with ignore := b } = q.matches_failure g)
    (tf pf : List Failure) :
    ∀ g ∈ (findFailures rules tf pf).getD [],
      ∃ f ∈ tf ++ pf, g.step = f.step ∧
        g.ignore = (r.matches_failure f && r.ignore) := by
  intro g hg
  have hg' : g ∈ findFailuresLoop rules (tf ++ pf) [] := by
    have hg2 : g ∈ (if (findFailuresLoop rules (tf ++ pf) []).length > 0 then
        some (findFailuresLoop rules (tf ++ pf) []) else none).getD [] := hg
    by_cases hc : (findFailuresLoop rules (tf ++ pf) []).length > 0
    · rwa [if_pos hc] at hg2
    · rw [if_neg hc] at hg2
      exact absurd hg2 (List.not_mem_nil g)
  obtain ⟨f, hf, he⟩ := findFailuresLoop_mem rules (tf ++ pf) [] g hg'
  subst he
  exact ⟨f, hf, (applyRules_preserves rules f).1,
    applyRules_ignore_last rules r hlast hblind f⟩

theorem findFailures_ignore_last_rule_witness :
    ∃ f ∈ [c1Fail] ++ ([] : List Failure),
      ({ c1Fail with ignore := true } : Failure).step = f.step ∧
      ({ c1Fail with ignore := true } : Failure).ignore =
        (c1RuleStep.matches_failure f && c1RuleStep.ignore) :=
  findFailures_ignore_last_rule [c1RuleStep] c1RuleStep rfl
    (by
      intro q hq g b
      simp only [List.mem_singleton] at hq
      subst hq
      rfl)
    [c1Fail] [] { c1Fail with ignore := true } (by decide)

/-- C2: the classifier walks test failures first then pod failures and keeps
exactly one failure per step — the first in concatenated order; the emitted
step names are the first-seen selection of the input's step names and are
duplicate-free, and with one test failure and one pod failure at the same
step only the (classified) test failure survives, its kind preserved. -/
theorem findFailures_first_per_step :
    (∀ (rules : List FailureRule) (tf pf : List Failure),
      ((findFailuresLoop rules (tf ++ pf) []).map (·.step)).Nodup ∧
      (findFailuresLoop rules (tf ++ pf) []).map (·.step) =
        firstSeen ((tf ++ pf).map (·.step)) []) ∧
    (∀ (rules : List FailureRule) (t p : Failure), t.step = p.step →
      findFailures rules [t] [p] = some [applyRules rules t] ∧
      (applyRules rules t).failure_type = t.failure_type) := by
  constructor
  · intro rules tf pf
    rw [findFailuresLoop_map_step]
    exact ⟨(firstSeen_nodup _ _).1, rfl⟩
  · intro rules t p hstep
    have hmem : p.step ∈ [t.step] := by simp [hstep]
    have h2 : findFailuresLoop rules [p] [t.step] = [] := by
      simp only [findFailuresLoop]
      rw [if_pos hmem]
    have hloop : findFailuresLoop rules ([t] ++ [p]) [] =
        [applyRules rules t] := by
      show (if t.step ∈ ([] : List String) then findFailuresLoop rules [p] []
        else (if rules.isEmpty then t else applyRules rules t) ::
          findFailuresLoop rules [p] [t.step]) = _
      rw [if_neg (List.not_mem_nil t.step), ruleGuard_eq_applyRules, h2]
    constructor
    · show (if (findFailuresLoop rules ([t] ++ [p]) []).length > 0 then
          some (findFailuresLoop rules ([t] ++ [p]) []) else none) =
        some [applyRules rules t]
      rw [hloop]
      rfl
    · exact (applyRules_preserves rules t).2.1

theorem findFailures_first_per_step_witness :
    findFailures [] [{ step := "s1", failure_type := "test_failure" }]
      [{ step := "s1", failure_type := "pod_failure" }] =
      some [applyRules [] { step := "s1", failure_type := "test_failure" }] :=
  (findFailures_first_per_step.2 [] _ _ rfl).1

/-- C7: for a rehearsal job constructed without an explicit pull-request id
(argument falsy, environment unset), the id is the second `-`-delimited token
of the job name, and with fewer than 2 tokens it is exactly `"1"` with a
warning, without error. -/
theorem jobPrId_fallback (prId envPull : Option String) (name : String)
    (hno : pyOrOpt prId = none) (henv : pyOrOpt envPull = none) :
    (∀ tok, (pySplit '-' name).get? 1 = some tok →
      jobPrId prId envPull name = (tok, false)) ∧
    ((pySplit '-' name).length < 2 →
      jobPrId prId envPull name = ("1", true)) := by
  unfold jobPrId
  rw [hno, henv]
  refine ⟨fun tok htok => by rw [htok], fun hlen => ?_⟩
  have hnone : (pySplit '-' name).get? 1 = none :=
    List.get?_eq_none.mpr (by omega)
  rw [hnone]

theorem jobPrId_fallback_witness :
    jobPrId (some "") none "rehearse" = ("1", true) :=
  (jobPrId_fallback (some "") none "rehearse" rfl rfl).2 (by decide)

/-- C6: when step collection yields zero steps, a non-rehearsal job terminates
with a non-zero exit code and produces no result, while a rehearsal job
continues with the empty step list. -/
theorem getSteps_empty_fatal (blobNames : List String)
    (h : collectSteps blobNames = Except.ok ([] : List String)) :
    (∃ c, getSteps false blobNames = .error (.exitCode c) ∧ c ≠ 0) ∧
    getSteps true blobNames = .ok [] := by
  unfold getSteps
  rw [h]
  exact ⟨⟨1, rfl, one_ne_zero⟩, rfl⟩

theorem getSteps_empty_fatal_witness :
    (∃ c, getSteps false [] = .error (.exitCode c) ∧ c ≠ 0) ∧
    getSteps true [] = .ok [] :=
  getSteps_empty_fatal [] rfl

/-- C3 counterexample: two object keys under the same step directory make the
returned step list contain that step name twice — the list is not
duplicate-free, contrary to the claim. -/
theorem getSteps_dup_counterexample :
    getSteps false
      ["logs/j/1/artifacts/s/step1/a", "logs/j/1/artifacts/s/step1/b"] =
      .ok ["step1", "step1"] ∧
    ¬ (["step1", "step1"] : List String).Nodup := by
  exact ⟨by decide, by decide⟩

/-- C3 amended: step discovery returns, for EACH listed key in listing order,
its second-to-last path segment — one entry per key, duplicates retained (no
deduplication is performed). -/
theorem getSteps_per_key (isReh : Bool) (names steps : List String)
    (h : getSteps isReh names = .ok steps) :
    List.Forall₂ (fun n s => pyNeg (pySplit '/' n) 2 = .ok s) names steps :=
  collectSteps_forall2 names steps (getSteps_ok_collect isReh names steps h)

theorem getSteps_per_key_witness :
    List.Forall₂ (fun n s => pyNeg (pySplit '/' n) 2 = Except.ok s)
      ["logs/j/1/artifacts/s/step1/a"] ["step1"] :=
  getSteps_per_key false ["logs/j/1/artifacts/s/step1/a"] ["step1"] (by decide)

/-- C4: pod scanning is per-file (it distributes over the walk list); a
`finished.json` whose `passed` field is `false` or absent yields exactly one
POD_FAILURE named after the immediate parent directory, one with `passed:
true` yields none, and files not named `finished.json` yield none. -/
theorem findPodFailures_fail_closed :
    (∀ (files₁ files₂ : List LogFile),
      findPodFailures (files₁ ++ files₂) =
        findPodFailures files₁ ++ findPodFailures files₂) ∧
    (∀ (root : List String) (data : List (String × JVal)),
      jsonLookup data "passed" = some (JVal.bool false) ∨
        jsonLookup data "passed" = none →
      findPodFailures [⟨root, "finished.json", data⟩] =
        [{ step := root.getLast?.getD "", failure_type := "pod_failure" }]) ∧
    (∀ (root : List String) (data : List (String × JVal)),
      jsonLookup data "passed" = some (JVal.bool true) →
      findPodFailures [⟨root, "finished.json", data⟩] = []) ∧
    (∀ (root : List String) (name : String) (data : List (String × JVal)),
      name ≠ "finished.json" →
      findPodFailures [⟨root, name, data⟩] = []) := by
  refine ⟨fun files₁ files₂ => List.filterMap_append .., ?_, ?_, ?_⟩
  · intro root data h
    have hget : jsonGet data "passed" (.bool false) = .bool false := by
      rw [jsonGet_eq_lookup_getD]
      rcases h with h | h <;> rw [h] <;> rfl
    simp [findPodFailures, hget]
  · intro root data h
    have hget : jsonGet data "passed" (.bool false) = .bool true := by
      rw [jsonGet_eq_lookup_getD, h]
      rfl
    simp [findPodFailures, hget]
  · intro root name data h
    simp [findPodFailures, h]

theorem findPodFailures_fail_closed_witness :
    findPodFailures
      [⟨["tmp", "1", "logs", "step1"], "finished.json",
        [("passed", JVal.bool false)]⟩] =
      [{ step := "step1", failure_type := "pod_failure" }] :=
  findPodFailures_fail_closed.2.1 ["tmp", "1", "logs", "step1"]
    [("passed", JVal.bool false)] (Or.inl rfl)

/-- C9: the accumulated TEST_FAILURE tuples are duplicate-free (recording an
already-present tuple is a no-op); scanning the same report document twice
changes nothing; and a file with one failing case scanned twice under verbose
reporting yields exactly one TEST_FAILURE record. -/
theorem findTestFailures_intra_dedup :
    (∀ (verbose : Bool) (files : List JunitFile),
      (findTestFailureRecs verbose files).Nodup) ∧
    (∀ (verbose : Bool) (jf : JunitFile),
      findTestFailures verbose [jf, jf] = findTestFailures verbose [jf]) ∧
    (∀ (jf : JunitFile) (suiteName caseName : String),
      jf.content = some [⟨suiteName, [.case ⟨caseName, [.failure]⟩]⟩] →
      strHasSub jf.fileName "junit" = true →
      strHasSub jf.fileName "xml" = true →
      findTestFailures true [jf, jf] =
        [{ step := junitFileStep jf, failure_type := "test_failure",
           failed_test_name := some (replaceSpaces caseName),
           failed_test_junit_path := some (junitFilePath jf) }]) := by
  refine ⟨findTestFailureRecs_nodup, findTestFailures_double, ?_⟩
  intro jf suiteName caseName hcontent hju hxml
  rw [findTestFailures_double]
  unfold findTestFailures findTestFailureRecs
  rw [List.foldl_cons, List.foldl_nil, scanFile_eq_foldl]
  have hcands : fileCands true jf =
      [mkTestFailure true (junitFileStep jf) caseName (junitFilePath jf)] := by
    simp [fileCands, hju, hxml, hcontent, suiteCands, childCands,
      resultCands]
  rw [hcands]
  simp [dedupAppend, mkTestFailure]

theorem findTestFailures_intra_dedup_witness :
    findTestFailures true [c9File, c9File] =
      [{ step := junitFileStep c9File, failure_type := "test_failure",
         failed_test_name := some (replaceSpaces "case one"),
         failed_test_junit_path := some (junitFilePath c9File) }] :=
  findTestFailures_intra_dedup.2.2 c9File "suiteA" "case one" rfl
    (by decide) (by decide)

/-- C10: with verbose reporting, every produced TEST_FAILURE carries as its
failed-test name the space-to-underscore image of some case- or suite-level
name of the scanned documents, and the recorded name never contains a
space. -/
theorem findTestFailures_verbose_names (files : List JunitFile) :
    ∀ f ∈ findTestFailures true files,
      (∃ n ∈ junitNamePool files,
        f.failed_test_name = some (replaceSpaces n)) ∧
      (∀ s, f.failed_test_name = some s → ∀ c ∈ s.data, c ≠ ' ') := by
  intro f hf
  unfold findTestFailures at hf
  obtain ⟨r, hr, rfl⟩ := List.mem_map.mp hf
  have hr' : r ∈ (files.flatMap (fileCands true)).foldl dedupAppend [] := by
    unfold findTestFailureRecs at hr
    rwa [findTestFailureRecs_eq_foldl] at hr
  rcases mem_of_mem_foldl_dedupAppend _ _ _ hr' with h | h
  · cases h
  · obtain ⟨jf, hjf, hrc⟩ := List.mem_flatMap.mp h
    obtain ⟨n, hn, rfl⟩ := fileCands_name jf r hrc
    constructor
    · exact ⟨n, List.mem_flatMap.mpr ⟨jf, hjf, hn⟩, rfl⟩
    · intro s hs c hcs
      have hsn : s = replaceSpaces n := by
        have : some (replaceSpaces n) = some s := hs
        exact (Option.some.inj this).symm
      subst hsn
      exact replaceSpaces_no_space n c hcs

/-- C5 counterexample: for a rehearsal-job object key, `split("/")[5]` is the
BUILD ID (`"42"`), not the first segment below the artifact prefix
(`"step1"`); the junit pass files the download under the build-id
directory. -/
theorem junitBlobStep_counterexample :
    junitBlobStep
      "pr-logs/pull/openshift_release/123/rehearse-123-foo/42/artifacts/foo/step1/junit_x.xml"
      = .ok "42" ∧
    firstSegBelowPrefix (rehearsalPrefix "123" "rehearse-123-foo" "42" "foo")
      "pr-logs/pull/openshift_release/123/rehearse-123-foo/42/artifacts/foo/step1/junit_x.xml"
      = some "step1" ∧
    ("42" : String) ≠ "step1" ∧
    downloadJunit "dl/artifacts" []
      ["pr-logs/pull/openshift_release/123/rehearse-123-foo/42/artifacts/foo/step1/junit_x.xml"]
      = .ok ["dl/artifacts/42/junit_x.xml", "dl/artifacts/42"] :=
  ⟨by decide, by decide, by decide, by decide⟩

/-- C5 amended: the junit pass always files a download under the key's
6th slash-segment (`split("/")[5]`); for non-rehearsal keys this coincides
with the first segment below the addressed artifact prefix, while for
rehearsal keys (whose prefix is 8 segments deep) position 5 is the build-id
segment, not a segment below the artifact prefix. -/
theorem junitBlobStep_position :
    (∀ (j b s st tl : String), '/' ∉ j.data → '/' ∉ b.data →
      '/' ∉ s.data → '/' ∉ st.data →
      junitBlobStep (nonRehearsalPrefix j b s ++ "/" ++ (st ++ "/" ++ tl)) =
        .ok st ∧
      firstSegBelowPrefix (nonRehearsalPrefix j b s)
        (nonRehearsalPrefix j b s ++ "/" ++ (st ++ "/" ++ tl)) = some st) ∧
    (∀ (p j b s st tl : String), '/' ∉ p.data → '/' ∉ j.data →
      '/' ∉ b.data → '/' ∉ s.data → '/' ∉ st.data →
      junitBlobStep (rehearsalPrefix p j b s ++ "/" ++ (st ++ "/" ++ tl)) =
        .ok b ∧
      firstSegBelowPrefix (rehearsalPrefix p j b s)
        (rehearsalPrefix p j b s ++ "/" ++ (st ++ "/" ++ tl)) = some st) := by
  constructor
  · intro j b s st tl hj hb hs hst
    have hkey := pySplit_nonRehearsal j b s (st ++ "/" ++ tl) hj hb hs
    rw [pySplit_append_sep st tl hst] at hkey
    constructor
    · unfold junitBlobStep pyIdx
      rw [hkey]
      rfl
    · unfold firstSegBelowPrefix
      rw [hkey, pySplit_nonRehearsalPrefix j b s hj hb hs]
      rfl
  · intro p j b s st tl hp hj hb hs hst
    have hkey := pySplit_rehearsal p j b s (st ++ "/" ++ tl) hp hj hb hs
    rw [pySplit_append_sep st tl hst] at hkey
    constructor
    · unfold junitBlobStep pyIdx
      rw [hkey]
      rfl
    · unfold firstSegBelowPrefix
      rw [hkey, pySplit_rehearsalPrefix p j b s hp hj hb hs]
      rfl

theorem junitBlobStep_position_witness :
    junitBlobStep (nonRehearsalPrefix "periodic-ci-foo" "42" "foo" ++ "/" ++
        ("step1" ++ "/" ++ "junit_x.xml")) = .ok "step1" ∧
    firstSegBelowPrefix (nonRehearsalPrefix "periodic-ci-foo" "42" "foo")
      (nonRehearsalPrefix "periodic-ci-foo" "42" "foo" ++ "/" ++
        ("step1" ++ "/" ++ "junit_x.xml")) = some "step1" :=
  junitBlobStep_position.1 "periodic-ci-foo" "42" "foo" "step1" "junit_x.xml"
    (by decide) (by decide) (by decide) (by decide)

/-- C8 counterexample: in the LOG pass, two objects mapping to the same
destination do not yield suffixed files — the first download succeeds and the
second raises `FileExistsError` (exclusive open, no `_<n>` loop in
`_download_logs`). -/
theorem downloadLogs_no_suffix_counterexample :
    downloadLogs "dl/logs" [] ["logs/j/1/artifacts/s/a/step1/finished.json"]
      = .ok ["dl/logs/step1/finished.json", "dl/logs/step1"] ∧
    downloadLogs "dl/logs" []
      ["logs/j/1/artifacts/s/a/step1/finished.json",
       "logs/j/1/artifacts/s/b/step1/finished.json"]
      = .error .fileExists :=
  ⟨by decide, by decide⟩

/-- C8 amended: only the junit/report pass appends `_<n>` suffixes; there a
successful pass creates pairwise-distinct new paths and never touches an
existing one (so N same-destination objects yield N distinct files,
`_1`, `_2`, …), while in the log pass a destination collision raises
`FileExistsError` and aborts the pass. -/
theorem downloadJunit_collision_suffix :
    (∀ (path : String) (fs blobs fs' : List String),
      downloadJunit path fs blobs = .ok fs' →
      ∃ new, fs' = new ++ fs ∧ new.Nodup ∧ ∀ x ∈ new, x ∉ fs) ∧
    downloadJunit "dl/artifacts" []
      ["logs/j/1/artifacts/s/step1/junit_a.xml",
       "logs/j/1/artifacts/s/step1/junit_a.xml",
       "logs/j/1/artifacts/s/step1/junit_a.xml"]
      = .ok ["dl/artifacts/step1/junit_a_2.xml",
        "dl/artifacts/step1/junit_a_1.xml", "dl/artifacts/step1/junit_a.xml",
        "dl/artifacts/step1"] :=
  ⟨fun path fs blobs fs' h => downloadJunit_ok blobs path fs fs' h, by decide⟩

theorem downloadJunit_collision_suffix_witness :
    ∃ new, ["dl/artifacts/step1/junit_a.xml", "dl/artifacts/step1"] =
      new ++ ([] : List String) ∧ new.Nodup ∧
      ∀ x ∈ new, x ∉ ([] : List String) :=
  downloadJunit_collision_suffix.1 "dl/artifacts" []
    ["logs/j/1/artifacts/s/step1/junit_a.xml"]
    ["dl/artifacts/step1/junit_a.xml", "dl/artifacts/step1"] (by decide)

theorem findTestFailures_verbose_names_witness :
    (∃ n ∈ junitNamePool [c10File],
      c10Out.failed_test_name = some (replaceSpaces n)) ∧
    (∀ s, c10Out.failed_test_name = some s → ∀ c ∈ s.data, c ≠ ' ') :=
  findTestFailures_verbose_names [c10File] c10Out (by decide)

end Firewatch
